import Mathlib

/-
Verification of the symbolic forward-chaining proof engine (expression model,
substitutions, pattern matcher, rule applicator, rule catalog toggling and the
bounded saturation search).

The embedding translates the source modules directly:
  * `src/formal/expressions.py`   -> `Expression`, `Fact`, `Rule`, the
    construction-time validators `mk_operation` / `mk_fact`.
  * `src/reasoning/pattern_matching.py` -> `Substitution` (a dict modelled as
    an insertion-ordered association list), `match_expression_recursive`,
    `match_fact`, `match_facts_list`, `apply_rule`, `can_apply_rule`.
  * `src/reasoning/proof_engine.py` -> `create_proof_step`, `process_new_facts`
    (the inner for-new_fact loop), `process_rules` (the for-rule loop),
    `prove_loop` (the iteration loop, fuel = max_iterations) and `prove`.
  * `src/reasoning/rules.py` -> `enable_rule` / `disable_rule`.

Python sets that the engine mutates are modelled as insertion-ordered
duplicate-free lists: the engine only inserts (never deletes), guarded by a
membership test, and the spec's determinism discussion fixes exactly this
stable insertion-order model.  Wall-clock time (`time_elapsed`) is not
modelled; the `try/except` wrapper cannot fire in the embedding because every
modelled operation is total.
-/

namespace MathGraph

/-- Expressions: tagged union of exact rationals, named variables and binary
operations, compared structurally (src/formal/expressions.py). -/
inductive Expression where
  | Number : Rat → Expression
  | Variable : String → Expression
  | Operation : Expression → String → Expression → Expression
deriving DecidableEq

/-- A logical statement `predicate(arguments)` (src/formal/expressions.py). -/
structure Fact where
  predicate : String
  arguments : List Expression
deriving DecidableEq

/-- An inference rule `premises -> conclusion` with a name.  As in the source,
the name does not take part in the algorithms below. -/
structure Rule where
  premises : List Fact
  conclusion : Fact
  name : String
deriving DecidableEq

/-- A substitution: the Python dict `mappings` as an insertion-ordered
association list (keys unique, new keys appended at the end, exactly the
iteration order of a Python dict). -/
abbrev Substitution := List (String × Expression)

/-- Dict lookup `self.mappings.get(variable)`. -/
def get_mapping : Substitution → String → Option Expression
  | [], _ => none
  | (v, e) :: rest, n => if v = n then some e else get_mapping rest n

/-- `Substitution.add_mapping`: returns the extended substitution, or `none`
when the variable is already bound to a different expression. -/
def add_mapping (s : Substitution) (v : String) (e : Expression) : Option Substitution :=
  match get_mapping s v with
  | some e2 => if e2 = e then some s else none
  | none => some (s ++ [(v, e)])

/-- `Substitution.merge`: fold the other substitution's bindings (in dict
order) into a copy of this one, failing on any inconsistent binding. -/
def Substitution.merge (s : Substitution) : Substitution → Option Substitution
  | [] => some s
  | (v, e) :: rest =>
    match add_mapping s v e with
    | none => none
    | some s2 => Substitution.merge s2 rest

/-- `Substitution.apply_to_expression`. -/
def Substitution.apply_to_expression (s : Substitution) : Expression → Expression
  | .Variable n =>
    match get_mapping s n with
    | some e => e
    | none => .Variable n
  | .Number v => .Number v
  | .Operation l o r =>
    .Operation (Substitution.apply_to_expression s l) o (Substitution.apply_to_expression s r)

/-- `Substitution.apply_to_fact`. -/
def Substitution.apply_to_fact (s : Substitution) (f : Fact) : Fact :=
  ⟨f.predicate, f.arguments.map (Substitution.apply_to_expression s)⟩

/-- Python `str.isupper()` restricted to the ASCII names the system builds:
at least one cased (alphabetic) character and every cased character upper. -/
def py_isupper (s : String) : Bool :=
  s.data.any (fun c => c.isAlpha) && s.data.all (fun c => !c.isAlpha || c.isUpper)

/-- Python `name.startswith('_')`. -/
def starts_with_underscore (s : String) : Bool :=
  match s.data with
  | [] => false
  | c :: _ => c = '_'

/-- The naming convention used by `_match_expression_recursive`: a pattern
variable is upper-case or underscore-prefixed; anything else is ground. -/
def is_pattern_var (n : String) : Bool :=
  py_isupper n || starts_with_underscore n

/-- `PatternMatcher._match_expression_recursive` (pattern, target, running
substitution). -/
def match_expression_recursive : Expression → Expression → Substitution → Option Substitution
  | .Variable n, target, s =>
    if is_pattern_var n then
      match get_mapping s n with
      | some e => if e = target then some s else none
      | none => some (s ++ [(n, target)])
    else
      match target with
      | .Variable m => if n = m then some s else none
      | _ => none
  | .Number v, target, s =>
    match target with
    | .Number w => if v = w then some s else none
    | _ => none
  | .Operation l o r, target, s =>
    match target with
    | .Operation l2 o2 r2 =>
      if o = o2 then
        match match_expression_recursive l l2 s with
        | none => none
        | some s1 => match_expression_recursive r r2 s1
      else none
    | _ => none

/-- `PatternMatcher.match_expression`. -/
def match_expression (pat : Expression) (target : Expression) : Option Substitution :=
  match_expression_recursive pat target []

/-- The argument loop of `PatternMatcher.match_fact`: match each argument pair
with a fresh substitution and merge into the accumulator. -/
def match_fact_args : List (Expression × Expression) → Substitution → Option Substitution
  | [], s => some s
  | (p, t) :: rest, s =>
    match match_expression p t with
    | none => none
    | some m =>
      match Substitution.merge s m with
      | none => none
      | some s2 => match_fact_args rest s2

/-- `PatternMatcher.match_fact`. -/
def match_fact (pat : Fact) (tgt : Fact) : Option Substitution :=
  if pat.predicate = tgt.predicate then
    if pat.arguments.length = tgt.arguments.length then
      match_fact_args (pat.arguments.zip tgt.arguments) []
    else none
  else none

/-- `PatternMatcher.match_facts_list`: empty premise list yields the empty
substitution, a single premise is matched against every target, and otherwise
the first premise is matched against each target with the remaining premises
matched against the pool minus that target, merging the results. -/
def match_facts_list : List Fact → List Fact → List Substitution
  | [], _ => [[]]
  | [p], targets => targets.filterMap (fun t => match_fact p t)
  | p :: ps, targets =>
    (targets.map (fun t =>
      match match_fact p t with
      | none => []
      | some first =>
        (match_facts_list ps (targets.erase t)).filterMap
          (fun rest => Substitution.merge first rest))).flatten

/-- `PatternMatcher.find_rule_matches`. -/
def find_rule_matches (rule_premises : List Fact) (available_facts : List Fact) : List Substitution :=
  match_facts_list rule_premises available_facts

/-- `RuleApplicator.apply_rule`: instantiate the conclusion under every
satisfying substitution, dropping conclusions already present. -/
def apply_rule (rule : Rule) (available_facts : List Fact) : List Fact :=
  (find_rule_matches rule.premises available_facts).filterMap (fun s =>
    let new_fact := Substitution.apply_to_fact s rule.conclusion
    if new_fact ∈ available_facts then none else some new_fact)

/-- `RuleApplicator.can_apply_rule`. -/
def can_apply_rule (rule : Rule) (available_facts : List Fact) : Bool :=
  !(find_rule_matches rule.premises available_facts).isEmpty

/-- A single proof step (proof_engine.py `ProofStep`). -/
structure ProofStep where
  rule_applied : Rule
  premises_used : List Fact
  derived_fact : Fact
  step_number : Nat
deriving DecidableEq

/-- Result of a proof attempt (proof_engine.py `ProofResult`, without the
unmodelled wall-clock field). -/
structure ProofResult where
  success : Bool
  goal_achieved : Bool
  steps : List ProofStep
  final_facts : List Fact
  iterations_used : Nat
  error_message : Option String
deriving DecidableEq

/-- `ForwardChainer._create_proof_step`: re-match the premises against the
current working facts, take the first substitution, and list its instantiated
premises (falling back to the raw pattern when an instantiation is absent). -/
def create_proof_step (rule : Rule) (current_facts : List Fact) (derived_fact : Fact)
    (step_number : Nat) : ProofStep :=
  match find_rule_matches rule.premises current_facts with
  | [] => ⟨rule, rule.premises, derived_fact, step_number⟩
  | substitution :: _ =>
    ⟨rule,
     rule.premises.map (fun premise_pattern =>
       let concrete := Substitution.apply_to_fact substitution premise_pattern
       if concrete ∈ current_facts then concrete else premise_pattern),
     derived_fact, step_number⟩

/-- Working state of one search: insertion-ordered fact set plus the proof
steps accumulated so far. -/
structure SearchState where
  facts : List Fact
  steps : List ProofStep
deriving DecidableEq

/-- Outcome of the inner loops of `ForwardChainer.prove`: fall through to the
next rule/iteration, return with the goal achieved, or return on the fact
limit. -/
inductive InnerOutcome where
  | next : SearchState → InnerOutcome
  | found : SearchState → InnerOutcome
  | overflow : SearchState → InnerOutcome
deriving DecidableEq

/-- State carried by an outcome. -/
def InnerOutcome.state : InnerOutcome → SearchState
  | .next st => st
  | .found st => st
  | .overflow st => st

/-- The `for new_fact in new_facts` loop body of `ForwardChainer.prove`:
skip known facts, create a proof step, append the fact, then check goal and
fact limit in that order. -/
def process_new_facts (goal : Fact) (max_facts : Nat) (rule : Rule) :
    List Fact → List Fact → List ProofStep → InnerOutcome
  | [], facts, steps => .next ⟨facts, steps⟩
  | nf :: rest, facts, steps =>
    if nf ∈ facts then process_new_facts goal max_facts rule rest facts steps
    else
      let step := create_proof_step rule facts nf (steps.length + 1)
      let steps2 := steps ++ [step]
      let facts2 := facts ++ [nf]
      if nf = goal then .found ⟨facts2, steps2⟩
      else if max_facts < facts2.length then .overflow ⟨facts2, steps2⟩
      else process_new_facts goal max_facts rule rest facts2 steps2

/-- The `for rule in rules` loop of `ForwardChainer.prove`: rules later in the
caller's order see the facts derived by earlier rules of the same iteration. -/
def process_rules (goal : Fact) (max_facts : Nat) :
    List Rule → List Fact → List ProofStep → InnerOutcome
  | [], facts, steps => .next ⟨facts, steps⟩
  | rule :: rest, facts, steps =>
    if can_apply_rule rule facts then
      match process_new_facts goal max_facts rule (apply_rule rule facts) facts steps with
      | .next st => process_rules goal max_facts rest st.facts st.steps
      | other => other
    else process_rules goal max_facts rest facts steps

/-- The fact-limit error message of `ForwardChainer.prove`. -/
def fact_limit_message (max_facts : Nat) : String :=
  "Too many facts generated (>" ++ toString max_facts ++ ")"

/-- The `for iteration in range(self.max_iterations)` loop, fuel-structured:
exhausted fuel is the iteration-limit return, a non-growing iteration is the
stuck return; both report success with no message. -/
def prove_loop (goal : Fact) (max_facts : Nat) (rules : List Rule) :
    Nat → Nat → List Fact → List ProofStep → ProofResult
  | 0, iters_done, facts, steps =>
    ⟨true, false, steps, facts, iters_done, none⟩
  | fuel + 1, iters_done, facts, steps =>
    let iteration := iters_done + 1
    let facts_at_start := facts.length
    match process_rules goal max_facts rules facts steps with
    | .found st => ⟨true, true, st.steps, st.facts, iteration, none⟩
    | .overflow st =>
      ⟨false, false, st.steps, st.facts, iteration, some (fact_limit_message max_facts)⟩
    | .next st =>
      if st.facts.length = facts_at_start then ⟨true, false, st.steps, st.facts, iteration, none⟩
      else prove_loop goal max_facts rules fuel iteration st.facts st.steps

/-- `ForwardChainer.prove`: immediate return when the goal is already known,
otherwise the bounded saturation loop. -/
def prove (max_iterations max_facts : Nat) (goal : Fact) (initial_facts : List Fact)
    (rules : List Rule) : ProofResult :=
  if goal ∈ initial_facts then ⟨true, true, [], initial_facts, 0, none⟩
  else prove_loop goal max_facts rules max_iterations 0 initial_facts []

/-- `Operation.VALID_OPERATORS` from src/formal/expressions.py. -/
def VALID_OPERATORS : List String := ["+", "-", "*", "/", "^", "**"]

/-- `Operation.__init__`: the construction-time operator check. -/
def mk_operation (left : Expression) (op_symbol : String) (right : Expression) :
    Except String Expression :=
  if op_symbol ∈ VALID_OPERATORS then Except.ok (Expression.Operation left op_symbol right)
  else Except.error ("Invalid operator: " ++ op_symbol)

/-- `Fact.VALID_PREDICATES` from src/formal/expressions.py. -/
def VALID_PREDICATES : List String :=
  ["eq", "gt", "lt", "gte", "lte", "even", "odd", "prime", "positive", "negative",
   "divides", "multiple"]

/-- `Fact._get_expected_arg_count`. -/
def get_expected_arg_count (predicate : String) : Except String Nat :=
  if predicate ∈ ["eq", "gt", "lt", "gte", "lte", "divides", "multiple"] then Except.ok 2
  else if predicate ∈ ["even", "odd", "prime", "positive", "negative"] then Except.ok 1
  else Except.error ("Unknown predicate: " ++ predicate)

/-- `Fact.__init__`: predicate-vocabulary check followed by the arity check. -/
def mk_fact (predicate : String) (arguments : List Expression) : Except String Fact :=
  if predicate ∈ VALID_PREDICATES then
    match get_expected_arg_count predicate with
    | Except.ok n =>
      if arguments.length = n then Except.ok ⟨predicate, arguments⟩
      else Except.error "wrong number of arguments"
    | Except.error msg => Except.error msg
  else Except.error ("Invalid predicate: " ++ predicate)

/-- `RuleSystem.enable_rule`: raise on a name absent from the catalog,
otherwise insert into the active set. -/
def enable_rule (rule_names : List String) (active_rules : List String) (rule_name : String) :
    Except String (List String) :=
  if rule_name ∈ rule_names then
    Except.ok (if rule_name ∈ active_rules then active_rules else active_rules ++ [rule_name])
  else Except.error ("Unknown rule: " ++ rule_name)

/-- `RuleSystem.disable_rule`: `set.discard`, a silent no-op on absent names. -/
def disable_rule (active_rules : List String) (rule_name : String) : List String :=
  active_rules.erase rule_name

/-- Whether an expression mentions a variable name. -/
def Expression.has_var (n : String) : Expression → Bool
  | .Number _ => false
  | .Variable m => n = m
  | .Operation l _ r => Expression.has_var n l || Expression.has_var n r

/-- Substitutions produced by matching bind only pattern-variable names. -/
def SubstWF (s : Substitution) : Prop := ∀ q ∈ s, is_pattern_var q.1 = true

/-- A substitution binds every pattern variable occurring in a fact. -/
def FactBound (s : Substitution) (f : Fact) : Prop :=
  ∀ n, is_pattern_var n = true → f.arguments.any (Expression.has_var n) = true →
    (get_mapping s n).isSome = true

lemma get_mapping_append_some {s u : Substitution} {n : String} {e : Expression}
    (h : get_mapping s n = some e) : get_mapping (s ++ u) n = some e := by
  induction s with
  | nil => simp [get_mapping] at h
  | cons hd tl ih =>
    obtain ⟨v, e2⟩ := hd
    by_cases hv : v = n
    · subst hv
      simp only [get_mapping, if_pos rfl] at h
      simp only [List.cons_append, get_mapping, if_pos rfl]
      exact h
    · simp only [get_mapping, if_neg hv] at h
      simp only [List.cons_append, get_mapping, if_neg hv]
      exact ih h

lemma get_mapping_mono {s s2 : Substitution} (h : s <+: s2) {n : String} {e : Expression}
    (hg : get_mapping s n = some e) : get_mapping s2 n = some e := by
  obtain ⟨u, rfl⟩ := h
  exact get_mapping_append_some hg

lemma get_mapping_append_none {s u : Substitution} {n : String}
    (h : get_mapping s n = none) : get_mapping (s ++ u) n = get_mapping u n := by
  induction s with
  | nil => simp
  | cons hd tl ih =>
    obtain ⟨v, e2⟩ := hd
    by_cases hv : v = n
    · subst hv
      simp only [get_mapping, if_pos rfl] at h
      exact Option.noConfusion h
    · simp only [get_mapping, if_neg hv] at h
      simp only [List.cons_append, get_mapping, if_neg hv]
      exact ih h

lemma substWF_nil : SubstWF [] := by
  intro q hq
  simp at hq

lemma substWF_mono {s s2 : Substitution} (h : s <+: s2) (h2 : SubstWF s2) : SubstWF s :=
  fun q hq => h2 q (h.subset hq)

lemma substWF_ground_none {s : Substitution} (h : SubstWF s) {n : String}
    (hn : is_pattern_var n = false) : get_mapping s n = none := by
  induction s with
  | nil => rfl
  | cons hd tl ih =>
    obtain ⟨v, e⟩ := hd
    by_cases hv : v = n
    · have := h (v, e) (List.mem_cons_self _ _)
      simp only at this
      rw [hv, hn] at this
      cases this
    · simp only [get_mapping, if_neg hv]
      exact ih (fun q hq => h q (List.mem_cons_of_mem _ hq))

lemma add_mapping_extends {s s1 : Substitution} {v : String} {e : Expression}
    (h : add_mapping s v e = some s1) : s <+: s1 := by
  unfold add_mapping at h
  cases hg : get_mapping s v with
  | some e2 =>
    rw [hg] at h
    by_cases he : e2 = e
    · simp [he] at h
      cases h
      exact List.prefix_rfl
    · simp [he] at h
  | none =>
    rw [hg] at h
    simp at h
    rw [← h]
    exact List.prefix_append s [(v, e)]

lemma add_mapping_get {s s1 : Substitution} {v : String} {e : Expression}
    (h : add_mapping s v e = some s1) : get_mapping s1 v = some e := by
  unfold add_mapping at h
  cases hg : get_mapping s v with
  | some e2 =>
    rw [hg] at h
    by_cases he : e2 = e
    · simp [he] at h
      rw [← h, hg, he]
    · simp [he] at h
  | none =>
    rw [hg] at h
    simp at h
    rw [← h, get_mapping_append_none hg]
    simp [get_mapping]

lemma add_mapping_wf {s s1 : Substitution} {v : String} {e : Expression}
    (hs : SubstWF s) (hv : is_pattern_var v = true)
    (h : add_mapping s v e = some s1) : SubstWF s1 := by
  unfold add_mapping at h
  cases hg : get_mapping s v with
  | some e2 =>
    rw [hg] at h
    by_cases he : e2 = e
    · simp [he] at h
      rw [← h]
      exact hs
    · simp [he] at h
  | none =>
    rw [hg] at h
    simp at h
    rw [← h]
    intro q hq
    rcases List.mem_append.mp hq with hq1 | hq2
    · exact hs q hq1
    · simp at hq2
      rw [hq2]
      exact hv

lemma merge_extends {t : Substitution} : ∀ {s s2 : Substitution},
    Substitution.merge s t = some s2 → s <+: s2 := by
  induction t with
  | nil =>
    intro s s2 h
    simp only [Substitution.merge] at h
    cases h
    exact List.prefix_rfl
  | cons hd rest ih =>
    intro s s2 h
    obtain ⟨v, e⟩ := hd
    simp only [Substitution.merge] at h
    cases hadd : add_mapping s v e with
    | none => rw [hadd] at h; cases h
    | some s1 =>
      rw [hadd] at h
      exact (add_mapping_extends hadd).trans (ih h)

lemma merge_wf {t : Substitution} : ∀ {s s2 : Substitution},
    SubstWF s → SubstWF t → Substitution.merge s t = some s2 → SubstWF s2 := by
  induction t with
  | nil =>
    intro s s2 hs _ h
    simp only [Substitution.merge] at h
    cases h
    exact hs
  | cons hd rest ih =>
    intro s s2 hs ht h
    obtain ⟨v, e⟩ := hd
    simp only [Substitution.merge] at h
    cases hadd : add_mapping s v e with
    | none => rw [hadd] at h; cases h
    | some s1 =>
      rw [hadd] at h
      have hv : is_pattern_var v = true := ht (v, e) (List.mem_cons_self _ _)
      exact ih (add_mapping_wf hs hv hadd) (fun q hq => ht q (List.mem_cons_of_mem _ hq)) h

lemma merge_get_right {t : Substitution} : ∀ {s s2 : Substitution},
    Substitution.merge s t = some s2 →
    ∀ {v : String} {e : Expression}, get_mapping t v = some e → get_mapping s2 v = some e := by
  induction t with
  | nil =>
    intro s s2 _ v e hg
    simp [get_mapping] at hg
  | cons hd rest ih =>
    intro s s2 h v e hg
    obtain ⟨v0, e0⟩ := hd
    simp only [Substitution.merge] at h
    cases hadd : add_mapping s v0 e0 with
    | none => rw [hadd] at h; cases h
    | some s1 =>
      rw [hadd] at h
      by_cases hv : v0 = v
      · subst hv
        simp [get_mapping] at hg
        have h1 : get_mapping s1 v0 = some e0 := add_mapping_get hadd
        rw [hg] at h1
        exact get_mapping_mono (merge_extends h) h1
      · simp only [get_mapping, if_neg hv] at hg
        exact ih h hg

lemma match_expr_var_elim {n : String} {t : Expression} {s s2 : Substitution}
    (h : match_expression_recursive (.Variable n) t s = some s2) :
    (is_pattern_var n = true ∧ get_mapping s n = some t ∧ s2 = s) ∨
    (is_pattern_var n = true ∧ get_mapping s n = none ∧ s2 = s ++ [(n, t)]) ∨
    (is_pattern_var n = false ∧ t = .Variable n ∧ s2 = s) := by
  simp only [match_expression_recursive] at h
  split at h
  case isTrue hp =>
    cases hg : get_mapping s n with
    | some e =>
      rw [hg] at h
      by_cases he : e = t
      · subst he
        simp at h
        exact Or.inl ⟨hp, rfl, h.symm⟩
      · simp [he] at h
    | none =>
      rw [hg] at h
      simp at h
      exact Or.inr (Or.inl ⟨hp, rfl, h.symm⟩)
  case isFalse hp =>
    cases t with
    | Variable m =>
      simp only at h
      by_cases hm : n = m
      · subst hm
        simp at h
        exact Or.inr (Or.inr ⟨by simpa using hp, rfl, h.symm⟩)
      · simp [hm] at h
    | Number w => exact Option.noConfusion h
    | Operation l o r => exact Option.noConfusion h

lemma match_expr_extends : ∀ {p t : Expression} {s s2 : Substitution},
    match_expression_recursive p t s = some s2 → s <+: s2 := by
  intro p
  induction p with
  | Variable n =>
    intro t s s2 h
    rcases match_expr_var_elim h with ⟨_, _, rfl⟩ | ⟨_, _, rfl⟩ | ⟨_, _, rfl⟩
    · exact List.prefix_rfl
    · exact List.prefix_append _ _
    · exact List.prefix_rfl
  | Number v =>
    intro t s s2 h
    cases t with
    | Number w =>
      simp only [match_expression_recursive] at h
      by_cases hw : v = w
      · simp [hw] at h
        cases h
        exact List.prefix_rfl
      · simp [hw] at h
    | Variable m => exact Option.noConfusion h
    | Operation a o2 b => exact Option.noConfusion h
  | Operation l o r ihl ihr =>
    intro t s s2 h
    cases t with
    | Operation l2 o2 r2 =>
      simp only [match_expression_recursive] at h
      by_cases ho : o = o2
      · rw [if_pos ho] at h
        cases hl : match_expression_recursive l l2 s with
        | none => rw [hl] at h; exact Option.noConfusion h
        | some s1 =>
          rw [hl] at h
          exact (ihl hl).trans (ihr h)
      · rw [if_neg ho] at h
        exact Option.noConfusion h
    | Number w => exact Option.noConfusion h
    | Variable m => exact Option.noConfusion h

lemma match_expr_wf : ∀ {p t : Expression} {s s2 : Substitution},
    match_expression_recursive p t s = some s2 → SubstWF s → SubstWF s2 := by
  intro p
  induction p with
  | Variable n =>
    intro t s s2 h hs
    rcases match_expr_var_elim h with ⟨hp, _, rfl⟩ | ⟨hp, _, rfl⟩ | ⟨_, _, rfl⟩
    · exact hs
    · intro q hq
      rcases List.mem_append.mp hq with h1 | h2
      · exact hs q h1
      · simp at h2
        rw [h2]
        exact hp
    · exact hs
  | Number v =>
    intro t s s2 h hs
    cases t with
    | Number w =>
      simp only [match_expression_recursive] at h
      by_cases hw : v = w
      · simp [hw] at h
        cases h
        exact hs
      · simp [hw] at h
    | Variable m => exact Option.noConfusion h
    | Operation a o2 b => exact Option.noConfusion h
  | Operation l o r ihl ihr =>
    intro t s s2 h hs
    cases t with
    | Operation l2 o2 r2 =>
      simp only [match_expression_recursive] at h
      by_cases ho : o = o2
      · rw [if_pos ho] at h
        cases hl : match_expression_recursive l l2 s with
        | none => rw [hl] at h; exact Option.noConfusion h
        | some s1 =>
          rw [hl] at h
          exact ihr h (ihl hl hs)
      · rw [if_neg ho] at h
        exact Option.noConfusion h
    | Number w => exact Option.noConfusion h
    | Variable m => exact Option.noConfusion h

lemma match_expr_binds : ∀ {p t : Expression} {s s2 : Substitution},
    match_expression_recursive p t s = some s2 →
    ∀ n, Expression.has_var n p = true → is_pattern_var n = true →
      (get_mapping s2 n).isSome = true := by
  intro p
  induction p with
  | Variable m =>
    intro t s s2 h n hv hpn
    have hnm : n = m := by simpa [Expression.has_var] using hv
    subst hnm
    rcases match_expr_var_elim h with ⟨hp, hg, rfl⟩ | ⟨hp, hg, rfl⟩ | ⟨hp, _, rfl⟩
    · rw [hg]
      rfl
    · rw [get_mapping_append_none hg]
      simp [get_mapping]
    · simp [hp] at hpn
  | Number v =>
    intro t s s2 h n hv hpn
    simp [Expression.has_var] at hv
  | Operation l o r ihl ihr =>
    intro t s s2 h n hv hpn
    cases t with
    | Operation l2 o2 r2 =>
      simp only [match_expression_recursive] at h
      by_cases ho : o = o2
      · rw [if_pos ho] at h
        cases hl : match_expression_recursive l l2 s with
        | none => rw [hl] at h; exact Option.noConfusion h
        | some s1 =>
          rw [hl] at h
          simp only [Expression.has_var, Bool.or_eq_true] at hv
          rcases hv with hvl | hvr
          · obtain ⟨e, hge⟩ := Option.isSome_iff_exists.mp (ihl hl n hvl hpn)
            rw [get_mapping_mono (match_expr_extends h) hge]
            rfl
          · exact ihr h n hvr hpn
      · rw [if_neg ho] at h
        exact Option.noConfusion h
    | Number w => exact Option.noConfusion h
    | Variable m => exact Option.noConfusion h

lemma apply_agree : ∀ {p : Expression} {s1 s2 : Substitution},
    (∀ n, Expression.has_var n p = true → get_mapping s1 n = get_mapping s2 n) →
    Substitution.apply_to_expression s1 p = Substitution.apply_to_expression s2 p := by
  intro p
  induction p with
  | Variable m =>
    intro s1 s2 h
    simp only [Substitution.apply_to_expression]
    rw [h m (by simp [Expression.has_var])]
  | Number v => intro s1 s2 h; rfl
  | Operation l o r ihl ihr =>
    intro s1 s2 h
    simp only [Substitution.apply_to_expression]
    rw [ihl (fun n hn => h n (by simp [Expression.has_var, hn])),
        ihr (fun n hn => h n (by simp [Expression.has_var, hn]))]

lemma apply_prefix_bound {p : Expression} {s s2 : Substitution} (hpre : s <+: s2)
    (hwf : SubstWF s2)
    (hb : ∀ n, Expression.has_var n p = true → is_pattern_var n = true →
      (get_mapping s n).isSome = true) :
    Substitution.apply_to_expression s2 p = Substitution.apply_to_expression s p := by
  apply apply_agree
  intro n hn
  cases hpn : is_pattern_var n with
  | true =>
    obtain ⟨e, hge⟩ := Option.isSome_iff_exists.mp (hb n hn hpn)
    rw [hge, get_mapping_mono hpre hge]
  | false =>
    rw [substWF_ground_none hwf hpn, substWF_ground_none (substWF_mono hpre hwf) hpn]

lemma match_expr_sound : ∀ {p t : Expression} {s s2 : Substitution},
    SubstWF s → match_expression_recursive p t s = some s2 →
    Substitution.apply_to_expression s2 p = t := by
  intro p
  induction p with
  | Variable m =>
    intro t s s2 hs h
    rcases match_expr_var_elim h with ⟨hp, hg, rfl⟩ | ⟨hp, hg, rfl⟩ | ⟨hp, ht, rfl⟩
    · simp [Substitution.apply_to_expression, hg]
    · simp [Substitution.apply_to_expression, get_mapping_append_none hg, get_mapping]
    · simp [Substitution.apply_to_expression, substWF_ground_none hs hp, ht]
  | Number v =>
    intro t s s2 hs h
    cases t with
    | Number w =>
      simp only [match_expression_recursive] at h
      by_cases hw : v = w
      · simp [Substitution.apply_to_expression, hw]
      · simp [hw] at h
    | Variable m => exact Option.noConfusion h
    | Operation a o2 b => exact Option.noConfusion h
  | Operation l o r ihl ihr =>
    intro t s s2 hs h
    cases t with
    | Operation l2 o2 r2 =>
      simp only [match_expression_recursive] at h
      by_cases ho : o = o2
      · rw [if_pos ho] at h
        cases hl : match_expression_recursive l l2 s with
        | none => rw [hl] at h; exact Option.noConfusion h
        | some s1 =>
          rw [hl] at h
          have h1 : Substitution.apply_to_expression s1 l = l2 := ihl hs hl
          have hwf1 : SubstWF s1 := match_expr_wf hl hs
          have h2 : Substitution.apply_to_expression s2 r = r2 := ihr hwf1 h
          have h3 : Substitution.apply_to_expression s2 l =
              Substitution.apply_to_expression s1 l :=
            apply_prefix_bound (match_expr_extends h) (match_expr_wf h hwf1)
              (fun n hn hpn => match_expr_binds hl n hn hpn)
          simp only [Substitution.apply_to_expression]
          rw [h3, h1, h2, ho]
      · rw [if_neg ho] at h
        exact Option.noConfusion h
    | Number w => exact Option.noConfusion h
    | Variable m => exact Option.noConfusion h

lemma map_eq_of_zip {α β : Type} {f : α → β} : ∀ {l1 : List α} {l2 : List β},
    l1.length = l2.length → (∀ pr ∈ l1.zip l2, f pr.1 = pr.2) → l1.map f = l2 := by
  intro l1
  induction l1 with
  | nil =>
    intro l2 hlen _
    cases l2 with
    | nil => rfl
    | cons b bs => simp at hlen
  | cons a as ih =>
    intro l2 hlen hall
    cases l2 with
    | nil => simp at hlen
    | cons b bs =>
      simp only [List.map_cons]
      have h1 : f a = b := hall (a, b) (by simp [List.zip_cons_cons])
      rw [h1, ih (by simpa using hlen)
        (fun pr hpr => hall pr (by simp [List.zip_cons_cons, hpr]))]

lemma mem_zip_left {α β : Type} : ∀ {l1 : List α} {l2 : List β} {a : α},
    a ∈ l1 → l1.length = l2.length → ∃ b, (a, b) ∈ l1.zip l2 := by
  intro l1
  induction l1 with
  | nil => intro l2 a ha _; simp at ha
  | cons x xs ih =>
    intro l2 a ha hlen
    cases l2 with
    | nil => simp at hlen
    | cons y ys =>
      rcases List.mem_cons.mp ha with rfl | hmem
      · exact ⟨y, by simp [List.zip_cons_cons]⟩
      · obtain ⟨b, hb⟩ := ih hmem (by simpa using hlen)
        exact ⟨b, by simp [List.zip_cons_cons, hb]⟩

lemma match_fact_args_spec : ∀ {l : List (Expression × Expression)} {s s2 : Substitution},
    SubstWF s → match_fact_args l s = some s2 →
    (s <+: s2) ∧ SubstWF s2 ∧
    ∀ pr ∈ l, Substitution.apply_to_expression s2 pr.1 = pr.2 ∧
      (∀ n, Expression.has_var n pr.1 = true → is_pattern_var n = true →
        (get_mapping s2 n).isSome = true) := by
  intro l
  induction l with
  | nil =>
    intro s s2 hs h
    simp only [match_fact_args] at h
    cases h
    exact ⟨List.prefix_rfl, hs, by simp⟩
  | cons hd rest ih =>
    intro s s2 hs h
    obtain ⟨p, t⟩ := hd
    simp only [match_fact_args] at h
    cases hm : match_expression p t with
    | none => rw [hm] at h; exact Option.noConfusion h
    | some m =>
      rw [hm] at h
      simp only at h
      cases hmg : Substitution.merge s m with
      | none => rw [hmg] at h; exact Option.noConfusion h
      | some s1 =>
        rw [hmg] at h
        simp only at h
        have hwm : SubstWF m := match_expr_wf hm substWF_nil
        have happ : Substitution.apply_to_expression m p = t := match_expr_sound substWF_nil hm
        have hbinds := match_expr_binds hm
        have hwf1 : SubstWF s1 := merge_wf hs hwm hmg
        have hpre1 : s <+: s1 := merge_extends hmg
        obtain ⟨hpre2, hwf2, hrest⟩ := ih hwf1 h
        have hb1 : ∀ n, Expression.has_var n p = true → is_pattern_var n = true →
            (get_mapping s1 n).isSome = true := by
          intro n hn hpn
          obtain ⟨e, hge⟩ := Option.isSome_iff_exists.mp (hbinds n hn hpn)
          rw [merge_get_right hmg hge]
          rfl
        have happ1 : Substitution.apply_to_expression s1 p = t := by
          rw [← happ]
          apply apply_agree
          intro n hn
          cases hpn : is_pattern_var n with
          | true =>
            obtain ⟨e, hge⟩ := Option.isSome_iff_exists.mp (hbinds n hn hpn)
            rw [hge, merge_get_right hmg hge]
          | false =>
            rw [substWF_ground_none hwf1 hpn, substWF_ground_none hwm hpn]
        refine ⟨hpre1.trans hpre2, hwf2, ?_⟩
        intro pr hpr
        rcases List.mem_cons.mp hpr with rfl | hmem
        · refine ⟨?_, ?_⟩
          · show Substitution.apply_to_expression s2 p = t
            rw [apply_prefix_bound hpre2 hwf2 hb1]
            exact happ1
          · intro n hn hpn
            obtain ⟨e, hge⟩ := Option.isSome_iff_exists.mp (hb1 n hn hpn)
            rw [get_mapping_mono hpre2 hge]
            rfl
        · exact hrest pr hmem

lemma match_fact_sound {pat tgt : Fact} {σ : Substitution} (h : match_fact pat tgt = some σ) :
    SubstWF σ ∧ Substitution.apply_to_fact σ pat = tgt ∧ FactBound σ pat := by
  unfold match_fact at h
  by_cases hp : pat.predicate = tgt.predicate
  · rw [if_pos hp] at h
    by_cases hlen : pat.arguments.length = tgt.arguments.length
    · rw [if_pos hlen] at h
      obtain ⟨_, hwf, hall⟩ := match_fact_args_spec substWF_nil h
      refine ⟨hwf, ?_, ?_⟩
      · cases tgt with
        | mk tp targs =>
          cases pat with
          | mk pp pargs =>
            simp only at hp hlen
            unfold Substitution.apply_to_fact
            simp only
            rw [hp]
            congr 1
            exact map_eq_of_zip hlen (fun pr hpr => (hall pr hpr).1)
      · intro n hpn hany
        rw [List.any_eq_true] at hany
        obtain ⟨a, ha, hv⟩ := hany
        obtain ⟨b, hb⟩ := mem_zip_left ha hlen
        exact (hall (a, b) hb).2 n hv hpn
    · rw [if_neg hlen] at h
      exact Option.noConfusion h
  · rw [if_neg hp] at h
    exact Option.noConfusion h

lemma factBound_mono {s s2 : Substitution} {f : Fact} (hpre : s <+: s2)
    (hb : FactBound s f) : FactBound s2 f := by
  intro n hpn hany
  obtain ⟨e, hge⟩ := Option.isSome_iff_exists.mp (hb n hpn hany)
  rw [get_mapping_mono hpre hge]
  rfl

lemma factBound_merge_right {first rest σ : Substitution} {f : Fact}
    (hmg : Substitution.merge first rest = some σ) (hb : FactBound rest f) : FactBound σ f := by
  intro n hpn hany
  obtain ⟨e, hge⟩ := Option.isSome_iff_exists.mp (hb n hpn hany)
  rw [merge_get_right hmg hge]
  rfl

lemma apply_fact_prefix_bound {s s2 : Substitution} {f : Fact} (hpre : s <+: s2)
    (hwf : SubstWF s2) (hb : FactBound s f) :
    Substitution.apply_to_fact s2 f = Substitution.apply_to_fact s f := by
  unfold Substitution.apply_to_fact
  congr 1
  apply List.map_congr_left
  intro a ha
  apply apply_prefix_bound hpre hwf
  intro n hn hpn
  exact hb n hpn (List.any_eq_true.mpr ⟨a, ha, hn⟩)

lemma apply_fact_merge_right {first rest σ : Substitution} {f : Fact}
    (hmg : Substitution.merge first rest = some σ) (hwr : SubstWF rest) (hwσ : SubstWF σ)
    (hb : FactBound rest f) :
    Substitution.apply_to_fact σ f = Substitution.apply_to_fact rest f := by
  unfold Substitution.apply_to_fact
  congr 1
  apply List.map_congr_left
  intro a ha
  apply apply_agree
  intro n hn
  cases hpn : is_pattern_var n with
  | true =>
    obtain ⟨e, hge⟩ := Option.isSome_iff_exists.mp
      (hb n hpn (List.any_eq_true.mpr ⟨a, ha, hn⟩))
    rw [hge, merge_get_right hmg hge]
  | false =>
    rw [substWF_ground_none hwσ hpn, substWF_ground_none hwr hpn]

lemma match_facts_list_singleton_mem {p : Fact} {ts : List Fact} {σ : Substitution} :
    σ ∈ match_facts_list [p] ts ↔ ∃ t ∈ ts, match_fact p t = some σ := by
  simp [match_facts_list, List.mem_filterMap]

lemma match_facts_list_cons_mem {p q : Fact} {qs ts : List Fact} {σ : Substitution} :
    σ ∈ match_facts_list (p :: q :: qs) ts ↔
      ∃ t ∈ ts, ∃ first, match_fact p t = some first ∧
        ∃ rest ∈ match_facts_list (q :: qs) (ts.erase t),
          Substitution.merge first rest = some σ := by
  constructor
  · intro h
    simp only [match_facts_list] at h
    rw [List.mem_flatten] at h
    obtain ⟨l, hl, hσ⟩ := h
    rw [List.mem_map] at hl
    obtain ⟨t, ht, rfl⟩ := hl
    cases hmf : match_fact p t with
    | none => rw [hmf] at hσ; simp at hσ
    | some first =>
      rw [hmf] at hσ
      simp only [List.mem_filterMap] at hσ
      obtain ⟨rest, hrest, hm⟩ := hσ
      exact ⟨t, ht, first, hmf, rest, hrest, hm⟩
  · rintro ⟨t, ht, first, hmf, rest, hrest, hm⟩
    simp only [match_facts_list]
    rw [List.mem_flatten]
    refine ⟨_, List.mem_map_of_mem _ ht, ?_⟩
    simp only [hmf, List.mem_filterMap]
    exact ⟨rest, hrest, hm⟩

lemma match_facts_list_sound : ∀ {ps : List Fact} {ts : List Fact} {σ : Substitution},
    σ ∈ match_facts_list ps ts →
    SubstWF σ ∧ ∀ p ∈ ps, Substitution.apply_to_fact σ p ∈ ts ∧ FactBound σ p := by
  intro ps
  induction ps with
  | nil =>
    intro ts σ h
    simp [match_facts_list] at h
    subst h
    exact ⟨substWF_nil, by simp⟩
  | cons p ps ih =>
    intro ts σ h
    cases ps with
    | nil =>
      rw [match_facts_list_singleton_mem] at h
      obtain ⟨t, ht, hmf⟩ := h
      obtain ⟨hwf, happ, hb⟩ := match_fact_sound hmf
      refine ⟨hwf, ?_⟩
      intro r hr
      rcases List.mem_cons.mp hr with rfl | hr2
      · exact ⟨by rw [happ]; exact ht, hb⟩
      · simp at hr2
    | cons q qs =>
      rw [match_facts_list_cons_mem] at h
      obtain ⟨t, ht, first, hmf, rest, hrest, hm⟩ := h
      obtain ⟨hwf_f, happ_f, hb_f⟩ := match_fact_sound hmf
      obtain ⟨hwf_r, hall_r⟩ := ih hrest
      have hwσ : SubstWF σ := merge_wf hwf_f hwf_r hm
      have hpre : first <+: σ := merge_extends hm
      refine ⟨hwσ, ?_⟩
      intro r hr
      rcases List.mem_cons.mp hr with rfl | hr2
      · refine ⟨?_, factBound_mono hpre hb_f⟩
        rw [apply_fact_prefix_bound hpre hwσ hb_f, happ_f]
        exact ht
      · obtain ⟨hmem, hb_r⟩ := hall_r r hr2
        refine ⟨?_, factBound_merge_right hm hb_r⟩
        rw [apply_fact_merge_right hm hwf_r hwσ hb_r]
        exact List.mem_of_mem_erase hmem

lemma match_facts_list_mono : ∀ {ps ts u : List Fact} {σ : Substitution},
    σ ∈ match_facts_list ps ts → σ ∈ match_facts_list ps (ts ++ u) := by
  intro ps
  induction ps with
  | nil =>
    intro ts u σ h
    simpa [match_facts_list] using h
  | cons p ps ih =>
    intro ts u σ h
    cases ps with
    | nil =>
      rw [match_facts_list_singleton_mem] at h ⊢
      obtain ⟨t, ht, hmf⟩ := h
      exact ⟨t, List.mem_append.mpr (Or.inl ht), hmf⟩
    | cons q qs =>
      rw [match_facts_list_cons_mem] at h ⊢
      obtain ⟨t, ht, first, hmf, rest, hrest, hm⟩ := h
      refine ⟨t, List.mem_append.mpr (Or.inl ht), first, hmf, rest, ?_, hm⟩
      rw [List.erase_append_left _ ht]
      exact ih hrest

lemma apply_rule_mem {rule : Rule} {ts : List Fact} {nf : Fact} :
    nf ∈ apply_rule rule ts ↔
      ∃ σ ∈ match_facts_list rule.premises ts,
        Substitution.apply_to_fact σ rule.conclusion = nf ∧ nf ∉ ts := by
  simp only [apply_rule, find_rule_matches, List.mem_filterMap]
  constructor
  · rintro ⟨σ, hσ, hopt⟩
    by_cases hin : Substitution.apply_to_fact σ rule.conclusion ∈ ts
    · rw [if_pos hin] at hopt
      exact Option.noConfusion hopt
    · rw [if_neg hin] at hopt
      injection hopt with hopt
      refine ⟨σ, hσ, hopt, ?_⟩
      rw [← hopt]
      exact hin
  · rintro ⟨σ, hσ, heq, hnin⟩
    refine ⟨σ, hσ, ?_⟩
    have hnin2 : Substitution.apply_to_fact σ rule.conclusion ∉ ts := by
      rw [heq]
      exact hnin
    rw [if_neg hnin2, heq]

lemma create_proof_step_eq {rule : Rule} {facts : List Fact} {d : Fact} {k : Nat}
    {σ0 : Substitution} {tl : List Substitution}
    (h : find_rule_matches rule.premises facts = σ0 :: tl)
    (hall : ∀ p ∈ rule.premises, Substitution.apply_to_fact σ0 p ∈ facts) :
    create_proof_step rule facts d k =
      ⟨rule, rule.premises.map (fun p => Substitution.apply_to_fact σ0 p), d, k⟩ := by
  simp only [create_proof_step, h]
  congr 1
  apply List.map_congr_left
  intro p hp
  simp [hall p hp]

/-- Soundness property of one proof step relative to the working fact set
`fb` in force at the moment the step was created: the recorded premises are
the rule's premises instantiated under the first re-derived substitution, all
of them are present in `fb`, and the derived fact is the rule's conclusion
under some substitution satisfying the premises in `fb`. -/
def StepOk (fb : List Fact) (st : ProofStep) : Prop :=
  (∃ σ0 tl, find_rule_matches st.rule_applied.premises fb = σ0 :: tl ∧
     st.premises_used = st.rule_applied.premises.map (fun p => Substitution.apply_to_fact σ0 p)) ∧
  (∀ p ∈ st.premises_used, p ∈ fb) ∧
  (∃ σ ∈ match_facts_list st.rule_applied.premises fb,
     st.derived_fact = Substitution.apply_to_fact σ st.rule_applied.conclusion)

/-- Every step of the trace is sound relative to the working set at its
creation: the set in force when the k-th step is created is the starting set
`fb` extended by the derived facts of the earlier steps, exactly how the
engine's working set evolves. -/
def SoundSteps : List Fact → List ProofStep → Prop
  | _, [] => True
  | fb, st :: rest => StepOk fb st ∧ SoundSteps (fb ++ [st.derived_fact]) rest

lemma sound_steps_snoc : ∀ {steps : List ProofStep} {fb : List Fact} {st : ProofStep},
    SoundSteps fb steps →
    StepOk (fb ++ steps.map (fun s => s.derived_fact)) st →
    SoundSteps fb (steps ++ [st]) := by
  intro steps
  induction steps with
  | nil =>
    intro fb st _ hok
    refine ⟨?_, trivial⟩
    simpa using hok
  | cons s0 rest ih =>
    intro fb st hsound hok
    obtain ⟨h0, hrest⟩ := hsound
    refine ⟨h0, ?_⟩
    apply ih hrest
    have heq : fb ++ [s0.derived_fact] ++ rest.map (fun s => s.derived_fact) =
        fb ++ (s0 :: rest).map (fun s => s.derived_fact) := by
      simp [List.append_assoc]
    rw [heq]
    exact hok

lemma sound_steps_derived : ∀ {steps : List ProofStep} {fb : List Fact},
    SoundSteps fb steps → ∀ st ∈ steps, ∃ σ,
      st.derived_fact = Substitution.apply_to_fact σ st.rule_applied.conclusion := by
  intro steps
  induction steps with
  | nil =>
    intro fb _ st hst
    simp at hst
  | cons s0 rest ih =>
    intro fb hsound st hst
    obtain ⟨h0, hrest⟩ := hsound
    rcases List.mem_cons.mp hst with rfl | hmem
    · obtain ⟨σ, _, heq⟩ := h0.2.2
      exact ⟨σ, heq⟩
    · exact ih hrest st hmem

/-- Invariant carried by the inner loops of the engine, relative to the
facts `facts` at loop entry: facts only grow (as a prefix), the working set
is always the initial set plus the derived facts of the trace in order, the
trace stays sound, rules used come from the supplied list, and the size
bounds of the fact limit hold. -/
def InnerInv (init : List Fact) (R : List Rule) (max_facts : Nat)
    (facts : List Fact) (o : InnerOutcome) : Prop :=
  facts <+: o.state.facts ∧
  o.state.facts = init ++ o.state.steps.map (fun s => s.derived_fact) ∧
  SoundSteps init o.state.steps ∧
  (∀ st ∈ o.state.steps, st.rule_applied ∈ R) ∧
  o.state.facts.length ≤ max facts.length max_facts + 1 ∧
  (∀ st2, o = .next st2 → st2.facts.length ≤ max facts.length max_facts) ∧
  (∀ st2, o = .overflow st2 → max_facts < st2.facts.length)

lemma innerInv_next {init : List Fact} {R : List Rule} {max_facts : Nat} {facts f2 : List Fact}
    {s2 : List ProofStep} (h1 : facts <+: f2)
    (h2 : f2 = init ++ s2.map (fun s => s.derived_fact))
    (h3 : SoundSteps init s2) (h4 : ∀ st ∈ s2, st.rule_applied ∈ R)
    (h5 : f2.length ≤ max facts.length max_facts) :
    InnerInv init R max_facts facts (.next ⟨f2, s2⟩) :=
  ⟨h1, h2, h3, h4, le_trans h5 (Nat.le_succ _),
   fun st2 h => by injection h with hx; rw [← hx]; exact h5,
   fun _ h => InnerOutcome.noConfusion h⟩

lemma innerInv_found {init : List Fact} {R : List Rule} {max_facts : Nat} {facts f2 : List Fact}
    {s2 : List ProofStep} (h1 : facts <+: f2)
    (h2 : f2 = init ++ s2.map (fun s => s.derived_fact))
    (h3 : SoundSteps init s2) (h4 : ∀ st ∈ s2, st.rule_applied ∈ R)
    (h5 : f2.length ≤ max facts.length max_facts + 1) :
    InnerInv init R max_facts facts (.found ⟨f2, s2⟩) :=
  ⟨h1, h2, h3, h4, h5, fun _ h => InnerOutcome.noConfusion h,
   fun _ h => InnerOutcome.noConfusion h⟩

lemma innerInv_overflow {init : List Fact} {R : List Rule} {max_facts : Nat} {facts f2 : List Fact}
    {s2 : List ProofStep} (h1 : facts <+: f2)
    (h2 : f2 = init ++ s2.map (fun s => s.derived_fact))
    (h3 : SoundSteps init s2) (h4 : ∀ st ∈ s2, st.rule_applied ∈ R)
    (h5 : f2.length ≤ max facts.length max_facts + 1)
    (h6 : max_facts < f2.length) :
    InnerInv init R max_facts facts (.overflow ⟨f2, s2⟩) :=
  ⟨h1, h2, h3, h4, h5, fun _ h => InnerOutcome.noConfusion h,
   fun st2 h => by injection h with hx; rw [← hx]; exact h6⟩

lemma process_new_facts_spec {goal : Fact} {max_facts : Nat} {rule : Rule} {R : List Rule}
    {init facts0 : List Fact} (hrule : rule ∈ R) :
    ∀ {nfs facts : List Fact} {steps : List ProofStep},
    facts0 <+: facts →
    facts = init ++ steps.map (fun s => s.derived_fact) →
    SoundSteps init steps →
    (∀ st ∈ steps, st.rule_applied ∈ R) →
    (∀ nf ∈ nfs, ∃ σ ∈ match_facts_list rule.premises facts0,
        Substitution.apply_to_fact σ rule.conclusion = nf) →
    InnerInv init R max_facts facts (process_new_facts goal max_facts rule nfs facts steps) := by
  intro nfs
  induction nfs with
  | nil =>
    intro facts steps hpre hfacts hsound hmem _
    simp only [process_new_facts]
    exact innerInv_next List.prefix_rfl hfacts hsound hmem (le_max_left _ _)
  | cons nf rest ih =>
    intro facts steps hpre hfacts hsound hmem hnfs
    simp only [process_new_facts]
    by_cases hin : nf ∈ facts
    · rw [if_pos hin]
      exact ih hpre hfacts hsound hmem (fun x hx => hnfs x (List.mem_cons_of_mem _ hx))
    · rw [if_neg hin]
      obtain ⟨σ, hσ, hσeq⟩ := hnfs nf (List.mem_cons_self _ _)
      have hσf : σ ∈ match_facts_list rule.premises facts := by
        obtain ⟨u, rfl⟩ := hpre
        exact match_facts_list_mono hσ
      obtain ⟨σ0, tl, hhead⟩ : ∃ σ0 tl, find_rule_matches rule.premises facts = σ0 :: tl := by
        cases hc : find_rule_matches rule.premises facts with
        | nil =>
          rw [find_rule_matches] at hc
          rw [hc] at hσf
          simp at hσf
        | cons a b => exact ⟨a, b, rfl⟩
      have hσ0 : σ0 ∈ match_facts_list rule.premises facts := by
        have hc : match_facts_list rule.premises facts = σ0 :: tl := hhead
        rw [hc]
        exact List.mem_cons_self _ _
      have hall : ∀ p ∈ rule.premises, Substitution.apply_to_fact σ0 p ∈ facts :=
        fun p hp => ((match_facts_list_sound hσ0).2 p hp).1
      rw [create_proof_step_eq hhead hall]
      set s1 : ProofStep :=
        ⟨rule, rule.premises.map (fun p => Substitution.apply_to_fact σ0 p), nf,
          steps.length + 1⟩ with hs1
      have hds1 : s1.derived_fact = nf := rfl
      have hok : StepOk facts s1 := by
        refine ⟨⟨σ0, tl, hhead, rfl⟩, ?_, ⟨σ, hσf, hσeq.symm⟩⟩
        intro p hp
        rw [hs1] at hp
        simp only [List.mem_map] at hp
        obtain ⟨q, hq, rfl⟩ := hp
        exact hall q hq
      have hok2 : StepOk (init ++ steps.map (fun s => s.derived_fact)) s1 := by
        rw [← hfacts]
        exact hok
      have hsound2 : SoundSteps init (steps ++ [s1]) := sound_steps_snoc hsound hok2
      have hfacts2 : facts ++ [nf] = init ++
          (steps ++ [s1]).map (fun s => s.derived_fact) := by
        rw [List.map_append, hfacts, List.append_assoc]
        simp [hds1]
      have hmem2 : ∀ st ∈ steps ++ [s1], st.rule_applied ∈ R := by
        intro st hst
        rcases List.mem_append.mp hst with h1 | h2
        · exact hmem st h1
        · simp at h2
          rw [h2, hs1]
          exact hrule
      have hlen1 : (facts ++ [nf]).length = facts.length + 1 := by simp
      by_cases hgoal : nf = goal
      · rw [if_pos hgoal]
        refine innerInv_found (List.prefix_append _ _) hfacts2 hsound2 hmem2 ?_
        rw [hlen1]
        exact Nat.succ_le_succ (le_max_left _ _)
      · rw [if_neg hgoal]
        by_cases hover : max_facts < (facts ++ [nf]).length
        · rw [if_pos hover]
          refine innerInv_overflow (List.prefix_append _ _) hfacts2 hsound2 hmem2 ?_ hover
          rw [hlen1]
          exact Nat.succ_le_succ (le_max_left _ _)
        · rw [if_neg hover]
          have hpre2 : facts0 <+: facts ++ [nf] := hpre.trans (List.prefix_append _ _)
          obtain ⟨i1, i2, i3, i4, i5, i6, i7⟩ := ih hpre2 hfacts2 hsound2 hmem2
            (fun x hx => hnfs x (List.mem_cons_of_mem _ hx))
          have hlen2 : (facts ++ [nf]).length ≤ max_facts := Nat.not_lt.mp hover
          have hmax : max (facts ++ [nf]).length max_facts = max_facts := max_eq_right hlen2
          refine ⟨(List.prefix_append _ _).trans i1, i2, i3, i4, ?_, ?_, i7⟩
          · refine le_trans i5 ?_
            rw [hmax]
            exact Nat.succ_le_succ (le_max_right _ _)
          · intro st2 h2
            refine le_trans (i6 st2 h2) ?_
            rw [hmax]
            exact le_max_right _ _

lemma process_rules_spec (goal : Fact) (max_facts : Nat) (R : List Rule) (init : List Fact) :
    ∀ {rs : List Rule} {facts : List Fact} {steps : List ProofStep},
    (∀ r ∈ rs, r ∈ R) →
    facts = init ++ steps.map (fun s => s.derived_fact) →
    SoundSteps init steps →
    (∀ st ∈ steps, st.rule_applied ∈ R) →
    InnerInv init R max_facts facts (process_rules goal max_facts rs facts steps) := by
  intro rs
  induction rs with
  | nil =>
    intro facts steps _ hfacts hsound hmem
    simp only [process_rules]
    exact innerInv_next List.prefix_rfl hfacts hsound hmem (le_max_left _ _)
  | cons rule rest ih =>
    intro facts steps hrs hfacts hsound hmem
    simp only [process_rules]
    by_cases hcan : can_apply_rule rule facts
    · rw [if_pos hcan]
      have hrule : rule ∈ R := hrs rule (List.mem_cons_self _ _)
      have hnfs : ∀ nf ∈ apply_rule rule facts,
          ∃ σ ∈ match_facts_list rule.premises facts,
            Substitution.apply_to_fact σ rule.conclusion = nf := by
        intro nf hnf
        obtain ⟨σ, hσ, heq, _⟩ := apply_rule_mem.mp hnf
        exact ⟨σ, hσ, heq⟩
      have hinner : InnerInv init R max_facts facts
          (process_new_facts goal max_facts rule (apply_rule rule facts) facts steps) :=
        process_new_facts_spec hrule List.prefix_rfl hfacts hsound hmem hnfs
      cases ho : process_new_facts goal max_facts rule (apply_rule rule facts) facts steps with
      | next st1 =>
        rw [ho] at hinner
        obtain ⟨i1, i2, i3, i4, i5, i6, i7⟩ := hinner
        have k1 : facts <+: st1.facts := i1
        have k2 : st1.facts = init ++ st1.steps.map (fun s => s.derived_fact) := i2
        have k3 : SoundSteps init st1.steps := i3
        have k4 : ∀ st ∈ st1.steps, st.rule_applied ∈ R := i4
        have k6 : st1.facts.length ≤ max facts.length max_facts := i6 st1 rfl
        show InnerInv init R max_facts facts (process_rules goal max_facts rest st1.facts st1.steps)
        obtain ⟨j1, j2, j3, j4, j5, j6, j7⟩ :=
          ih (fun r hr => hrs r (List.mem_cons_of_mem _ hr)) k2 k3 k4
        have hmax2 : max st1.facts.length max_facts ≤ max facts.length max_facts :=
          max_le k6 (le_max_right _ _)
        refine ⟨k1.trans j1, j2, j3, j4, ?_, ?_, j7⟩
        · exact le_trans j5 (Nat.succ_le_succ hmax2)
        · intro st2 h2
          exact le_trans (j6 st2 h2) hmax2
      | found st1 =>
        rw [ho] at hinner
        exact hinner
      | overflow st1 =>
        rw [ho] at hinner
        exact hinner
    · rw [if_neg hcan]
      exact ih (fun r hr => hrs r (List.mem_cons_of_mem _ hr)) hfacts hsound hmem

/-- Invariant established by the main iteration loop: growth of the working
set, the final-facts equation, soundness of the trace, rule provenance, the
iteration and fact-count bounds, and the success/error-message discipline of
the three exhaustion outcomes. -/
def LoopInv (init : List Fact) (rules : List Rule) (max_facts iters_bound : Nat)
    (facts : List Fact) (r : ProofResult) : Prop :=
  facts <+: r.final_facts ∧
  r.final_facts = init ++ r.steps.map (fun s => s.derived_fact) ∧
  SoundSteps init r.steps ∧
  (∀ st ∈ r.steps, st.rule_applied ∈ rules) ∧
  r.iterations_used ≤ iters_bound ∧
  r.final_facts.length ≤ max facts.length max_facts + 1 ∧
  (r.goal_achieved = false →
    (r.success = true ∧ r.error_message = none) ∨
    (r.success = false ∧ r.error_message = some (fact_limit_message max_facts) ∧
      max_facts < r.final_facts.length)) ∧
  (r.goal_achieved = true → r.success = true ∧ r.error_message = none)

lemma prove_loop_spec (goal : Fact) (max_facts : Nat) (rules : List Rule) (init : List Fact) :
    ∀ (fuel iters_done : Nat) {facts : List Fact} {steps : List ProofStep},
    facts = init ++ steps.map (fun s => s.derived_fact) →
    SoundSteps init steps →
    (∀ st ∈ steps, st.rule_applied ∈ rules) →
    LoopInv init rules max_facts (iters_done + fuel) facts
      (prove_loop goal max_facts rules fuel iters_done facts steps) := by
  intro fuel
  induction fuel with
  | zero =>
    intro iters_done facts steps hfacts hsound hmem
    simp only [prove_loop]
    refine ⟨List.prefix_rfl, hfacts, hsound, hmem, ?_, ?_, ?_, ?_⟩
    · exact Nat.le_refl _
    · exact le_trans (le_max_left _ _) (Nat.le_succ _)
    · intro _
      exact Or.inl ⟨rfl, rfl⟩
    · intro hga
      exact Bool.noConfusion hga
  | succ fuel ih =>
    intro iters_done facts steps hfacts hsound hmem
    simp only [prove_loop]
    have hinner : InnerInv init rules max_facts facts
        (process_rules goal max_facts rules facts steps) :=
      process_rules_spec goal max_facts rules init (fun r hr => hr) hfacts hsound hmem
    cases ho : process_rules goal max_facts rules facts steps with
    | found st1 =>
      rw [ho] at hinner
      obtain ⟨i1, i2, i3, i4, i5, _, _⟩ := hinner
      refine ⟨i1, i2, i3, i4, ?_, i5, ?_, ?_⟩
      · show iters_done + 1 ≤ iters_done + (fuel + 1)
        omega
      · intro hga
        exact Bool.noConfusion hga
      · intro _
        exact ⟨rfl, rfl⟩
    | overflow st1 =>
      rw [ho] at hinner
      obtain ⟨i1, i2, i3, i4, i5, _, i7⟩ := hinner
      refine ⟨i1, i2, i3, i4, ?_, i5, ?_, ?_⟩
      · show iters_done + 1 ≤ iters_done + (fuel + 1)
        omega
      · intro _
        exact Or.inr ⟨rfl, rfl, i7 st1 rfl⟩
      · intro hga
        exact Bool.noConfusion hga
    | next st1 =>
      rw [ho] at hinner
      obtain ⟨i1, i2, i3, i4, i5, i6, _⟩ := hinner
      have k1 : facts <+: st1.facts := i1
      have k2 : st1.facts = init ++ st1.steps.map (fun s => s.derived_fact) := i2
      have k3 : SoundSteps init st1.steps := i3
      have k4 : ∀ st ∈ st1.steps, st.rule_applied ∈ rules := i4
      have k6 : st1.facts.length ≤ max facts.length max_facts := i6 st1 rfl
      show LoopInv init rules max_facts (iters_done + (fuel + 1)) facts
        (if st1.facts.length = facts.length then
          ⟨true, false, st1.steps, st1.facts, iters_done + 1, none⟩
        else prove_loop goal max_facts rules fuel (iters_done + 1) st1.facts st1.steps)
      by_cases hstuck : st1.facts.length = facts.length
      · rw [if_pos hstuck]
        refine ⟨k1, k2, k3, k4, ?_, ?_, ?_, ?_⟩
        · show iters_done + 1 ≤ iters_done + (fuel + 1)
          omega
        · exact le_trans k6 (Nat.le_succ _)
        · intro _
          exact Or.inl ⟨rfl, rfl⟩
        · intro hga
          exact Bool.noConfusion hga
      · rw [if_neg hstuck]
        obtain ⟨j1, j2, j3, j4, j5, j6, j7, j8⟩ := ih (iters_done + 1) k2 k3 k4
        have hmax2 : max st1.facts.length max_facts ≤ max facts.length max_facts :=
          max_le k6 (le_max_right _ _)
        refine ⟨k1.trans j1, j2, j3, j4, ?_, ?_, j7, j8⟩
        · refine le_trans j5 ?_
          show iters_done + 1 + fuel ≤ iters_done + (fuel + 1)
          omega
        · exact le_trans j6 (Nat.succ_le_succ hmax2)

lemma prove_spec (max_iterations max_facts : Nat) (goal : Fact) (init : List Fact)
    (rules : List Rule) :
    LoopInv init rules max_facts max_iterations init
      (prove max_iterations max_facts goal init rules) := by
  unfold prove
  by_cases hg : goal ∈ init
  · rw [if_pos hg]
    refine ⟨List.prefix_rfl, by simp, trivial, by simp, Nat.zero_le _, ?_, ?_, ?_⟩
    · exact le_trans (le_max_left _ _) (Nat.le_succ _)
    · intro hga
      exact Bool.noConfusion hga
    · intro _
      exact ⟨rfl, rfl⟩
  · rw [if_neg hg]
    have h0 : init = init ++ List.map (fun s => s.derived_fact) ([] : List ProofStep) := by simp
    have h2 : ∀ st ∈ ([] : List ProofStep), st.rule_applied ∈ rules := by simp
    have h := prove_loop_spec goal max_facts rules init max_iterations 0 h0 trivial h2
    rw [Nat.zero_add] at h
    exact h

lemma merge_nil_right (s : Substitution) : Substitution.merge s [] = some s := rfl

/-- Declarative reading of one branch of the `match_facts_list` enumeration:
an assignment of target facts to the premise list, one per premise in order,
where a fact given to one premise is removed from the pool for the remaining
premises and the per-premise matches merge into a consistent substitution. -/
inductive ValidAssign : List Fact → List Fact → List Fact → Substitution → Prop where
  | nil (ts : List Fact) : ValidAssign [] ts [] []
  | cons {p : Fact} {ps ts : List Fact} {t : Fact} {a : List Fact}
      {first rest σ : Substitution} :
      t ∈ ts → match_fact p t = some first →
      ValidAssign ps (ts.erase t) a rest →
      Substitution.merge first rest = some σ →
      ValidAssign (p :: ps) ts (t :: a) σ

/-- The premise-order-first enumeration of assignments the spec describes for
`match_facts_list`, carrying the assigned facts next to each merged
substitution. -/
def assignment_enum : List Fact → List Fact → List (List Fact × Substitution)
  | [], _ => [([], [])]
  | p :: ps, ts =>
    (ts.map (fun t =>
      match match_fact p t with
      | none => []
      | some first =>
        (assignment_enum ps (ts.erase t)).filterMap
          (fun pr => (Substitution.merge first pr.2).map (fun σ => (t :: pr.1, σ))))).flatten

lemma valid_assign_mem : ∀ {ps ts a : List Fact} {σ : Substitution},
    ValidAssign ps ts a σ → (a, σ) ∈ assignment_enum ps ts := by
  intro ps ts a σ h
  induction h with
  | nil ts => simp [assignment_enum]
  | cons ht hmf hva hmg ih2 =>
    simp only [assignment_enum]
    rw [List.mem_flatten]
    refine ⟨_, List.mem_map_of_mem _ ht, ?_⟩
    simp only [hmf, List.mem_filterMap]
    refine ⟨_, ih2, ?_⟩
    simp [hmg]

lemma mem_assignment_enum_valid : ∀ {ps ts a : List Fact} {σ : Substitution},
    (a, σ) ∈ assignment_enum ps ts → ValidAssign ps ts a σ := by
  intro ps
  induction ps with
  | nil =>
    intro ts a σ h
    simp only [assignment_enum, List.mem_singleton] at h
    rw [Prod.mk.injEq] at h
    obtain ⟨h1, h2⟩ := h
    subst h1
    subst h2
    exact ValidAssign.nil ts
  | cons p ps ih =>
    intro ts a σ h
    simp only [assignment_enum] at h
    rw [List.mem_flatten] at h
    obtain ⟨l, hl, hmem⟩ := h
    rw [List.mem_map] at hl
    obtain ⟨t, ht, rfl⟩ := hl
    cases hmf : match_fact p t with
    | none =>
      rw [hmf] at hmem
      simp at hmem
    | some first =>
      rw [hmf] at hmem
      simp only [List.mem_filterMap] at hmem
      obtain ⟨pr, hpr, hop⟩ := hmem
      cases hmg : Substitution.merge first pr.2 with
      | none =>
        rw [hmg] at hop
        exact Option.noConfusion hop
      | some σ2 =>
        rw [hmg] at hop
        injection hop with hop
        rw [Prod.mk.injEq] at hop
        obtain ⟨h1, h2⟩ := hop
        subst h1
        subst h2
        exact ValidAssign.cons ht hmf (ih hpr) hmg

lemma valid_assign_distinct : ∀ {ps ts a : List Fact} {σ : Substitution},
    ValidAssign ps ts a σ → ts.Nodup → a.Nodup ∧ ∀ t ∈ a, t ∈ ts := by
  intro ps ts a σ h
  induction h with
  | nil ts =>
    intro _
    exact ⟨List.nodup_nil, by simp⟩
  | cons ht hmf hva hmg ih2 =>
    intro hnd
    obtain ⟨hnd2, hsub⟩ := ih2 (hnd.erase _)
    constructor
    · rw [List.nodup_cons]
      refine ⟨?_, hnd2⟩
      intro hta
      have hmem := hsub _ hta
      rw [List.Nodup.mem_erase_iff hnd] at hmem
      exact hmem.1 rfl
    · intro x hx
      rcases List.mem_cons.mp hx with rfl | hx2
      · exact ht
      · exact List.mem_of_mem_erase (hsub x hx2)

lemma flatten_map_option {α β : Type} (h : α → Option β) : ∀ (ts : List α),
    (ts.map (fun t => match h t with | none => ([] : List β) | some x => [x])).flatten =
      ts.filterMap h := by
  intro ts
  induction ts with
  | nil => rfl
  | cons t ts ih =>
    simp only [List.map_cons, List.flatten_cons, List.filterMap_cons]
    cases h t with
    | none => simpa using ih
    | some x => simp [ih]

lemma match_facts_list_eq_enum : ∀ (ps ts : List Fact),
    match_facts_list ps ts = (assignment_enum ps ts).map Prod.snd := by
  intro ps
  induction ps with
  | nil => intro ts; rfl
  | cons p ps ih =>
    intro ts
    cases ps with
    | nil =>
      simp only [match_facts_list, assignment_enum]
      rw [List.map_flatten, List.map_map,
        ← flatten_map_option (fun t => match_fact p t) ts]
      congr 1
      apply List.map_congr_left
      intro t _
      simp only [Function.comp_apply]
      cases hmf : match_fact p t with
      | none => simp [hmf]
      | some first => simp [hmf, assignment_enum, merge_nil_right]
    | cons q qs =>
      simp only [match_facts_list, assignment_enum]
      rw [List.map_flatten, List.map_map]
      congr 1
      apply List.map_congr_left
      intro t _
      simp only [Function.comp_apply]
      cases hmf : match_fact p t with
      | none => simp [hmf]
      | some first =>
        simp only [hmf]
        rw [List.map_filterMap, ih, List.filterMap_map]
        congr 1
        funext pr
        simp only [Function.comp_apply]
        cases Substitution.merge first pr.2 with
        | none => rfl
        | some σ => rfl

deriving instance DecidableEq for Except

/-- Well-formedness enforced by `Fact.__init__`: a known predicate applied to
the number of arguments its arity demands. -/
def FactWF (f : Fact) : Prop :=
  f.predicate ∈ VALID_PREDICATES ∧
  get_expected_arg_count f.predicate = Except.ok f.arguments.length

instance factWF_decidable (f : Fact) : Decidable (FactWF f) :=
  inferInstanceAs (Decidable (f.predicate ∈ VALID_PREDICATES ∧
    get_expected_arg_count f.predicate = Except.ok f.arguments.length))

lemma apply_to_fact_factWF {σ : Substitution} {f : Fact} (h : FactWF f) :
    FactWF (Substitution.apply_to_fact σ f) := by
  obtain ⟨h1, h2⟩ := h
  refine ⟨h1, ?_⟩
  simp only [Substitution.apply_to_fact, List.length_map]
  exact h2

/-- A ground fact `eq(a, b)` over two named unknowns, used in concrete runs. -/
def eq_fact (a b : String) : Fact :=
  ⟨"eq", [Expression.Variable a, Expression.Variable b]⟩

/-- The catalog rule `equality_symmetry`: `eq(X, Y) → eq(Y, X)`. -/
def symmetry_rule : Rule :=
  ⟨[⟨"eq", [Expression.Variable "X", Expression.Variable "Y"]⟩],
   ⟨"eq", [Expression.Variable "Y", Expression.Variable "X"]⟩, "equality_symmetry"⟩

/-- C1, counterexample.  With facts `eq(a,b), eq(c,d)` and the symmetry rule,
iteration one derives `eq(b,a)` then `eq(d,c)`.  Both steps record
`premises_used = [eq(a,b)]` (the instantiated premises of the first
substitution re-derived at creation time), and the first substitution of the
working set `[eq(a,b), eq(c,d), eq(b,a)]` in force when the second step is
created is `{X: a, Y: b}`, whose conclusion instance is `eq(b,a)` — not the
step's `derived_fact = eq(d,c)`.  So a step's derived fact does not equal the
rule's conclusion under the substitution whose instantiated premises are
listed as `premises_used`. -/
theorem c1_counterexample :
    (prove 100 1000 (eq_fact "c" "c") [eq_fact "a" "b", eq_fact "c" "d"]
        [symmetry_rule]).steps.map (fun st => (st.premises_used, st.derived_fact)) =
      [([eq_fact "a" "b"], eq_fact "b" "a"), ([eq_fact "a" "b"], eq_fact "d" "c")] ∧
    (prove 100 1000 (eq_fact "c" "c") [eq_fact "a" "b", eq_fact "c" "d"]
        [symmetry_rule]).final_facts =
      [eq_fact "a" "b", eq_fact "c" "d", eq_fact "b" "a", eq_fact "d" "c"] ∧
    (match_facts_list symmetry_rule.premises
        [eq_fact "a" "b", eq_fact "c" "d", eq_fact "b" "a"]).headI =
      [("X", Expression.Variable "a"), ("Y", Expression.Variable "b")] ∧
    symmetry_rule.premises.map (fun p => Substitution.apply_to_fact
        [("X", Expression.Variable "a"), ("Y", Expression.Variable "b")] p) =
      [eq_fact "a" "b"] ∧
    Substitution.apply_to_fact [("X", Expression.Variable "a"), ("Y", Expression.Variable "b")]
        symmetry_rule.conclusion = eq_fact "b" "a" ∧
    eq_fact "b" "a" ≠ eq_fact "d" "c" := by
  refine ⟨by decide, by decide, by decide, by decide, by decide, by decide⟩

/-- C1, amended.  Every step of a `prove` call is sound relative to the
working fact set in force when it was created (the initial facts plus the
derived facts of the earlier steps): `premises_used` is the rule's premise
list instantiated under the first substitution re-derived there, each of
those facts is literally present in that working set, and `derived_fact`
equals the rule's conclusion under some substitution matching the premises
against that working set — though not necessarily under the first, recorded
one. -/
theorem c1_step_provenance_amended (max_iterations max_facts : Nat) (goal : Fact)
    (initial_facts : List Fact) (rules : List Rule) :
    SoundSteps initial_facts
      (prove max_iterations max_facts goal initial_facts rules).steps :=
  (prove_spec max_iterations max_facts goal initial_facts rules).2.2.1

/-- C2, counterexample.  A fact-limit exhaustion is reported with
`success = false` (and an explanatory message), not `success = true` as the
claim states: with `max_facts = 1`, deriving `eq(b,a)` from `eq(a,b)`
overflows immediately. -/
theorem c2_counterexample :
    (prove 10 1 (eq_fact "c" "c") [eq_fact "a" "b"] [symmetry_rule]).goal_achieved = false ∧
    (prove 10 1 (eq_fact "c" "c") [eq_fact "a" "b"] [symmetry_rule]).success = false ∧
    (prove 10 1 (eq_fact "c" "c") [eq_fact "a" "b"] [symmetry_rule]).error_message =
      some "Too many facts generated (>1)" := by
  refine ⟨by decide, by decide, by decide⟩

/-- C2, amended.  Every search-exhaustion outcome is returned as a normal
`ProofResult`, never as a raised exception: Stuck and IterationLimit come
back with `success = true`, `goal_achieved = false` and no error message,
while FactLimit comes back with `success = false`, `goal_achieved = false`
and the explanatory fact-limit message, the working set having exceeded
`max_facts`. -/
theorem c2_exhaustion_flags_amended (max_iterations max_facts : Nat) (goal : Fact)
    (initial_facts : List Fact) (rules : List Rule) :
    (prove max_iterations max_facts goal initial_facts rules).goal_achieved = false →
      ((prove max_iterations max_facts goal initial_facts rules).success = true ∧
       (prove max_iterations max_facts goal initial_facts rules).error_message = none) ∨
      ((prove max_iterations max_facts goal initial_facts rules).success = false ∧
       (prove max_iterations max_facts goal initial_facts rules).error_message =
         some (fact_limit_message max_facts) ∧
       max_facts <
         (prove max_iterations max_facts goal initial_facts rules).final_facts.length) :=
  (prove_spec max_iterations max_facts goal initial_facts rules).2.2.2.2.2.2.1

/-- C2, witness: a stuck run (no rules) at a concrete input. -/
theorem c2_exhaustion_flags_witness :
    (prove 5 1000 (eq_fact "a" "b") [] []).goal_achieved = false ∧
    (((prove 5 1000 (eq_fact "a" "b") [] []).success = true ∧
      (prove 5 1000 (eq_fact "a" "b") [] []).error_message = none) ∨
     ((prove 5 1000 (eq_fact "a" "b") [] []).success = false ∧
      (prove 5 1000 (eq_fact "a" "b") [] []).error_message =
        some (fact_limit_message 1000) ∧
      1000 < (prove 5 1000 (eq_fact "a" "b") [] []).final_facts.length)) :=
  ⟨by decide, c2_exhaustion_flags_amended 5 1000 (eq_fact "a" "b") [] [] (by decide)⟩

/-- C3.  When the goal is already among the initial facts, `prove` returns
immediately with no steps, `goal_achieved = true`, `success = true`,
`iterations_used = 0` (and the unchanged fact set, no error message). -/
theorem c3_trivial_goal (max_iterations max_facts : Nat) (goal : Fact)
    (initial_facts : List Fact) (rules : List Rule) (h : goal ∈ initial_facts) :
    prove max_iterations max_facts goal initial_facts rules =
      ⟨true, true, [], initial_facts, 0, none⟩ := by
  unfold prove
  rw [if_pos h]

/-- C3, witness at a concrete trivial goal. -/
theorem c3_trivial_goal_witness :
    eq_fact "a" "b" ∈ [eq_fact "a" "b"] ∧
    prove 7 9 (eq_fact "a" "b") [eq_fact "a" "b"] [symmetry_rule] =
      ⟨true, true, [], [eq_fact "a" "b"], 0, none⟩ :=
  ⟨by decide, c3_trivial_goal 7 9 (eq_fact "a" "b") [eq_fact "a" "b"] [symmetry_rule]
    (by decide)⟩

/-- C4.  Every `prove` call terminates (the definition is total, the
iteration loop being structural on the `max_iterations` fuel), uses at most
`max_iterations` iterations, and stops as soon as the working set exceeds
`max_facts`: the final set never grows past one fact beyond the larger of
the initial size and `max_facts`. -/
theorem c4_termination_bounds (max_iterations max_facts : Nat) (goal : Fact)
    (initial_facts : List Fact) (rules : List Rule) :
    (prove max_iterations max_facts goal initial_facts rules).iterations_used ≤
      max_iterations ∧
    (prove max_iterations max_facts goal initial_facts rules).final_facts.length ≤
      max initial_facts.length max_facts + 1 :=
  ⟨(prove_spec max_iterations max_facts goal initial_facts rules).2.2.2.2.1,
   (prove_spec max_iterations max_facts goal initial_facts rules).2.2.2.2.2.1⟩

/-- C5.  The working fact set only grows during one `prove` call: the final
set is exactly the initial facts followed by the derived facts of the steps
in order, so every initial fact and every derived fact is contained in
`final_facts` and no fact is ever removed. -/
theorem c5_monotonicity (max_iterations max_facts : Nat) (goal : Fact)
    (initial_facts : List Fact) (rules : List Rule) :
    (prove max_iterations max_facts goal initial_facts rules).final_facts =
      initial_facts ++ (prove max_iterations max_facts goal initial_facts rules).steps.map
        (fun st => st.derived_fact) ∧
    (∀ f ∈ initial_facts,
      f ∈ (prove max_iterations max_facts goal initial_facts rules).final_facts) ∧
    (∀ st ∈ (prove max_iterations max_facts goal initial_facts rules).steps,
      st.derived_fact ∈
        (prove max_iterations max_facts goal initial_facts rules).final_facts) := by
  have h := prove_spec max_iterations max_facts goal initial_facts rules
  refine ⟨h.2.1, ?_, ?_⟩
  · intro f hf
    rw [h.2.1]
    exact List.mem_append.mpr (Or.inl hf)
  · intro st hst
    rw [h.2.1]
    exact List.mem_append.mpr (Or.inr (List.mem_map_of_mem _ hst))

/-- C5, witness at a concrete run. -/
theorem c5_monotonicity_witness :
    (prove 4 10 (eq_fact "c" "c") [eq_fact "a" "b"] [symmetry_rule]).final_facts =
      [eq_fact "a" "b"] ++ (prove 4 10 (eq_fact "c" "c") [eq_fact "a" "b"]
        [symmetry_rule]).steps.map (fun st => st.derived_fact) :=
  (c5_monotonicity 4 10 (eq_fact "c" "c") [eq_fact "a" "b"] [symmetry_rule]).1

/-- C6.  `prove` is deterministic: two calls on equal goals, equal
(insertion-ordered) initial fact sets and equal rule lists agree on the
steps and their order, both flags, the iteration count and the final fact
set.  The embedding fixes the stable insertion-order working set the spec's
determinism proviso requires. -/
theorem c6_determinism (max_iterations max_facts : Nat) (g1 g2 : Fact)
    (f1 f2 : List Fact) (r1 r2 : List Rule)
    (hg : g1 = g2) (hf : f1 = f2) (hr : r1 = r2) :
    (prove max_iterations max_facts g1 f1 r1).steps =
      (prove max_iterations max_facts g2 f2 r2).steps ∧
    (prove max_iterations max_facts g1 f1 r1).goal_achieved =
      (prove max_iterations max_facts g2 f2 r2).goal_achieved ∧
    (prove max_iterations max_facts g1 f1 r1).success =
      (prove max_iterations max_facts g2 f2 r2).success ∧
    (prove max_iterations max_facts g1 f1 r1).iterations_used =
      (prove max_iterations max_facts g2 f2 r2).iterations_used ∧
    (prove max_iterations max_facts g1 f1 r1).final_facts =
      (prove max_iterations max_facts g2 f2 r2).final_facts := by
  subst hg
  subst hf
  subst hr
  exact ⟨rfl, rfl, rfl, rfl, rfl⟩

/-- C6, witness at a concrete input pair. -/
theorem c6_determinism_witness :
    (prove 3 5 (eq_fact "a" "b") [eq_fact "c" "d"] [symmetry_rule]).steps =
      (prove 3 5 (eq_fact "a" "b") [eq_fact "c" "d"] [symmetry_rule]).steps ∧
    (prove 3 5 (eq_fact "a" "b") [eq_fact "c" "d"] [symmetry_rule]).goal_achieved =
      (prove 3 5 (eq_fact "a" "b") [eq_fact "c" "d"] [symmetry_rule]).goal_achieved ∧
    (prove 3 5 (eq_fact "a" "b") [eq_fact "c" "d"] [symmetry_rule]).success =
      (prove 3 5 (eq_fact "a" "b") [eq_fact "c" "d"] [symmetry_rule]).success ∧
    (prove 3 5 (eq_fact "a" "b") [eq_fact "c" "d"] [symmetry_rule]).iterations_used =
      (prove 3 5 (eq_fact "a" "b") [eq_fact "c" "d"] [symmetry_rule]).iterations_used ∧
    (prove 3 5 (eq_fact "a" "b") [eq_fact "c" "d"] [symmetry_rule]).final_facts =
      (prove 3 5 (eq_fact "a" "b") [eq_fact "c" "d"] [symmetry_rule]).final_facts :=
  c6_determinism 3 5 (eq_fact "a" "b") (eq_fact "a" "b") [eq_fact "c" "d"]
    [eq_fact "c" "d"] [symmetry_rule] [symmetry_rule] rfl rfl rfl

/-- C7.  `match_facts_list` returns exactly one substitution per valid
assignment of pairwise-distinct target facts to the premise list whose
per-premise matches merge consistently, in premise-order-first enumeration
order: it equals the assignment enumeration projected to substitutions,
every enumerated assignment is valid, duplicate-free and drawn from the
targets, and every valid assignment is enumerated. -/
theorem c7_match_facts_list_enumeration (patterns targets : List Fact)
    (hnd : targets.Nodup) :
    match_facts_list patterns targets =
      (assignment_enum patterns targets).map Prod.snd ∧
    (∀ a σ, (a, σ) ∈ assignment_enum patterns targets →
      ValidAssign patterns targets a σ ∧ a.Nodup ∧ ∀ t ∈ a, t ∈ targets) ∧
    (∀ a σ, ValidAssign patterns targets a σ →
      (a, σ) ∈ assignment_enum patterns targets) := by
  refine ⟨match_facts_list_eq_enum _ _, ?_, ?_⟩
  · intro a σ h
    have hv := mem_assignment_enum_valid h
    obtain ⟨h1, h2⟩ := valid_assign_distinct hv hnd
    exact ⟨hv, h1, h2⟩
  · intro a σ h
    exact valid_assign_mem h

/-- C7, witness at a concrete one-premise pattern and one-fact pool. -/
theorem c7_match_facts_list_enumeration_witness :
    List.Nodup [eq_fact "a" "b"] ∧
    match_facts_list symmetry_rule.premises [eq_fact "a" "b"] =
      (assignment_enum symmetry_rule.premises [eq_fact "a" "b"]).map Prod.snd :=
  ⟨by decide, (c7_match_facts_list_enumeration symmetry_rule.premises
    [eq_fact "a" "b"] (by decide)).1⟩

/-- C8.  Variable semantics of the expression matcher: a pattern variable
(upper-case or underscore-prefixed name, per the naming convention) binds to
the target when unbound and, when already bound, succeeds exactly when the
existing binding equals the target (returning the substitution unchanged);
a ground variable (any other name) matches exactly the target variable of
the identical name and produces no binding. -/
theorem c8_variable_matching (n : String) (target : Expression) (s : Substitution) :
    (is_pattern_var n = true →
      ((∀ e, get_mapping s n = some e →
         match_expression_recursive (Expression.Variable n) target s =
           (if e = target then some s else none)) ∧
       (get_mapping s n = none →
         match_expression_recursive (Expression.Variable n) target s =
           some (s ++ [(n, target)])))) ∧
    (is_pattern_var n = false →
      match_expression_recursive (Expression.Variable n) target s =
        (if target = Expression.Variable n then some s else none)) := by
  constructor
  · intro hp
    constructor
    · intro e hg
      simp [match_expression_recursive, hp, hg]
    · intro hg
      simp [match_expression_recursive, hp, hg]
  · intro hp
    have hred : match_expression_recursive (Expression.Variable n) target s =
        (match target with
         | Expression.Variable m => if n = m then some s else none
         | _ => none) := by
      simp [match_expression_recursive, hp]
    rw [hred]
    cases target with
    | Variable m =>
      show (if n = m then some s else none) =
        (if Expression.Variable m = Expression.Variable n then some s else none)
      by_cases hm : n = m
      · subst hm
        simp
      · rw [if_neg hm, if_neg (fun hc => hm (by injection hc with h2; exact h2.symm))]
    | Number w => simp
    | Operation a o b => simp

/-- C8, witness: the unbound pattern-variable branch at a concrete input. -/
theorem c8_variable_matching_witness :
    is_pattern_var "X" = true ∧ get_mapping [] "X" = none ∧
    match_expression_recursive (Expression.Variable "X") (Expression.Number 5) [] =
      some [("X", Expression.Number 5)] :=
  ⟨by decide, rfl,
   ((c8_variable_matching "X" (Expression.Number 5) []).1 (by decide)).2 rfl⟩

/-- C9, counterexample.  The operator vocabulary of `Operation.__init__` also
contains `'**'`: constructing an Operation whose operator is outside the
claimed set `{+, -, *, /, ^}` does not always fail. -/
theorem c9_counterexample :
    ("**" ∉ ["+", "-", "*", "/", "^"]) ∧
    mk_operation (Expression.Number 1) "**" (Expression.Number 2) =
      Except.ok (Expression.Operation (Expression.Number 1) "**" (Expression.Number 2)) :=
  ⟨by decide, rfl⟩

/-- C9, amended.  Construction-time validation: an Operation is accepted
exactly for operators in `{+, -, *, /, ^, **}`; a Fact is accepted exactly
for a predicate of the twelve-name vocabulary applied to its fixed arity;
and such errors never arise mid-search, since whenever the initial facts and
the rule conclusions are well-formed every fact in the final working set of
a `prove` call is well-formed. -/
theorem c9_construction_validation_amended :
    (∀ (l r : Expression) (o : String),
      (∃ e, mk_operation l o r = Except.ok e) ↔ o ∈ VALID_OPERATORS) ∧
    (∀ (p : String) (args : List Expression),
      (∃ f, mk_fact p args = Except.ok f) ↔
        (p ∈ VALID_PREDICATES ∧ get_expected_arg_count p = Except.ok args.length)) ∧
    (∀ (max_iterations max_facts : Nat) (goal : Fact) (initial_facts : List Fact)
        (rules : List Rule),
      (∀ f ∈ initial_facts, FactWF f) → (∀ ru ∈ rules, FactWF ru.conclusion) →
      ∀ f ∈ (prove max_iterations max_facts goal initial_facts rules).final_facts,
        FactWF f) := by
  refine ⟨?_, ?_, ?_⟩
  · intro l r o
    unfold mk_operation
    by_cases ho : o ∈ VALID_OPERATORS
    · simp [ho]
    · simp [ho]
  · intro p args
    unfold mk_fact
    by_cases hp : p ∈ VALID_PREDICATES
    · rw [if_pos hp]
      cases hg : get_expected_arg_count p with
      | ok n =>
        by_cases hl : args.length = n
        · subst hl
          simp [hp, hg]
        · simp [hp, hg, hl]
          intro hc
          exact absurd hc.symm hl
      | error msg => simp [hp, hg]
    · rw [if_neg hp]
      simp [hp]
  · intro max_iterations max_facts goal initial_facts rules hwf1 hwf2 f hf
    have h := prove_spec max_iterations max_facts goal initial_facts rules
    rw [h.2.1] at hf
    rcases List.mem_append.mp hf with h1 | h2
    · exact hwf1 f h1
    · rw [List.mem_map] at h2
      obtain ⟨st, hst, rfl⟩ := h2
      obtain ⟨σ, heq⟩ := sound_steps_derived h.2.2.1 st hst
      rw [heq]
      exact apply_to_fact_factWF (hwf2 _ (h.2.2.2.1 st hst))

/-- C9, witness: a run from well-formed facts keeps facts well-formed. -/
theorem c9_construction_validation_witness : FactWF (eq_fact "a" "b") :=
  c9_construction_validation_amended.2.2 3 5 (eq_fact "a" "b") [eq_fact "a" "b"] []
    (by decide) (by decide) (eq_fact "a" "b") (by decide)

/-- C10.  Rule toggling is asymmetric on unknown names: `enable_rule` on a
name outside the catalog raises (and, raising before any mutation, leaves
the active set unchanged — `disable_rule` of that same name is a silent
no-op since the active set only holds catalog names); on known names
`enable_rule` adds the name and `disable_rule` removes it, leaving every
other name's membership unchanged. -/
theorem c10_rule_toggling (catalog active : List String) (rule_name : String)
    (hnd : active.Nodup) (hsub : ∀ x ∈ active, x ∈ catalog) :
    (rule_name ∉ catalog →
      (∃ msg, enable_rule catalog active rule_name = Except.error msg) ∧
      disable_rule active rule_name = active) ∧
    (rule_name ∈ catalog →
      ∃ l, enable_rule catalog active rule_name = Except.ok l ∧
        ∀ x, (x ∈ l ↔ x ∈ active ∨ x = rule_name)) ∧
    (∀ x, x ∈ disable_rule active rule_name ↔ x ∈ active ∧ x ≠ rule_name) := by
  refine ⟨?_, ?_, ?_⟩
  · intro hno
    constructor
    · refine ⟨"Unknown rule: " ++ rule_name, ?_⟩
      unfold enable_rule
      rw [if_neg hno]
    · unfold disable_rule
      apply List.erase_of_not_mem
      intro hmem
      exact hno (hsub _ hmem)
  · intro hyes
    refine ⟨if rule_name ∈ active then active else active ++ [rule_name], ?_, ?_⟩
    · unfold enable_rule
      rw [if_pos hyes]
    · intro x
      by_cases hxa : rule_name ∈ active
      · rw [if_pos hxa]
        constructor
        · exact fun h => Or.inl h
        · rintro (h | rfl)
          · exact h
          · exact hxa
      · rw [if_neg hxa]
        simp [List.mem_append]
  · intro x
    unfold disable_rule
    constructor
    · intro hx
      exact ⟨List.mem_of_mem_erase hx, ((List.Nodup.mem_erase_iff hnd).mp hx).1⟩
    · rintro ⟨hx, hne⟩
      exact (List.Nodup.mem_erase_iff hnd).mpr ⟨hne, hx⟩

/-- C10, witness: a known name stays present after disabling an unknown one. -/
theorem c10_rule_toggling_witness :
    "subtraction_property" ∈ disable_rule ["subtraction_property"] "nope" ↔
      ("subtraction_property" ∈ (["subtraction_property"] : List String) ∧
       "subtraction_property" ≠ "nope") :=
  (c10_rule_toggling ["subtraction_property"] ["subtraction_property"] "nope"
    (by decide) (by decide)).2.2 "subtraction_property"

end MathGraph
